import Mathlib

/-!
# Verification of the MXNet MNIST batch-transform notebook

Shallow embedding of the notebook
`sagemaker-python-sdk/mxnet_mnist/mxnet_mnist_with_batch_transform.ipynb`.

The notebook's own logic, cell by cell:
* the Decision Extractor `prediction = probabilities.index(max(probabilities))`,
* the Result Fetcher path splicing
  `parsed_url = urlparse(transformer.output_path)`,
  `bucket_name = parsed_url.netloc`,
  `file_key = '{}/data.csv.out'.format(parsed_url.path[1:])`,
* the decode step `output = ast.literal_eval(output); probabilities = output[0]`,
* the idempotent temporary-directory setup
  `if not os.path.exists(tmp_dir): os.makedirs(tmp_dir)`,
* and the linear workflow fit -> transform -> wait -> fetch -> decode -> extract.

Floating-point probability vectors are modelled over `ℚ`: every comparison the
notebook performs on its literal probability values is order-preserving under
this interpretation.
-/

namespace MnistBatchTransform

/-- Embedding of Python builtin `max(iterable)`: raises
`ValueError: max() arg is an empty sequence` on an empty list; otherwise
folds over the list keeping the current value unless a strictly greater one
appears (first maximal element wins on ties). -/
def pyMax {α : Type} [LinearOrder α] (l : List α) : Except String α :=
  match l with
  | [] => Except.error "max() arg is an empty sequence"
  | x :: xs => Except.ok (xs.foldl (fun a b => if a < b then b else a) x)

/-- Embedding of Python `list.index(v)`: first index whose element equals `v`,
`ValueError` if absent. -/
def list_index {α : Type} [DecidableEq α] (l : List α) (v : α) : Except String Nat :=
  match l with
  | [] => Except.error "is not in list"
  | x :: xs => if x = v then Except.ok 0 else (list_index xs v).map (· + 1)

/-- The Decision Extractor of the notebook:
`prediction = probabilities.index(max(probabilities))`.
An exception raised by `max` propagates. -/
def prediction (probabilities : List ℚ) : Except String Nat :=
  match pyMax probabilities with
  | Except.error e => Except.error e
  | Except.ok m => list_index probabilities m

/- ### Helper lemmas about `pyMax` and `list_index` -/

theorem pyMax_step_eq_max {α : Type} [LinearOrder α] :
    (fun (a b : α) => if a < b then b else a) = (fun a b => max a b) := by
  funext a b
  rcases lt_trichotomy a b with h | h | h
  · simp [h, max_eq_right h.le]
  · simp [h]
  · simp [not_lt_of_gt h, max_eq_left h.le]

theorem le_foldl_max {α : Type} [LinearOrder α] :
    ∀ (xs : List α) (a : α), a ≤ xs.foldl max a
  | [], _ => le_refl _
  | x :: xs, a => le_trans (le_max_left a x) (le_foldl_max xs (max a x))

theorem mem_le_foldl_max {α : Type} [LinearOrder α] :
    ∀ (xs : List α) (a b : α), b ∈ xs → b ≤ xs.foldl max a := by
  intro xs
  induction xs with
  | nil => intro a b h; cases h
  | cons x xs ih =>
    intro a b h
    rcases List.mem_cons.mp h with rfl | h
    · exact le_trans (le_max_right a b) (le_foldl_max xs (max a b))
    · exact ih (max a x) b h

theorem foldl_max_mem {α : Type} [LinearOrder α] :
    ∀ (xs : List α) (a : α), xs.foldl max a = a ∨ xs.foldl max a ∈ xs := by
  intro xs
  induction xs with
  | nil => intro a; left; rfl
  | cons x xs ih =>
    intro a
    rcases ih (max a x) with h | h
    · rcases max_cases a x with ⟨hm, _⟩ | ⟨hm, _⟩
      · left; rw [List.foldl_cons, h, hm]
      · right; rw [List.foldl_cons, h, hm]; exact List.mem_cons_self x xs
    · right; exact List.mem_cons_of_mem x h

/-- `pyMax` on a non-empty list returns an element of the list that bounds
every element from above. -/
theorem pyMax_spec {α : Type} [LinearOrder α] (l : List α) (h : l ≠ []) :
    ∃ m, pyMax l = Except.ok m ∧ m ∈ l ∧ ∀ b ∈ l, b ≤ m := by
  match l with
  | [] => exact absurd rfl h
  | x :: xs =>
    refine ⟨xs.foldl max x, ?_, ?_, ?_⟩
    · simp only [pyMax, pyMax_step_eq_max]
    · rcases foldl_max_mem xs x with h1 | h1
      · rw [h1]; exact List.mem_cons_self x xs
      · exact List.mem_cons_of_mem x h1
    · intro b hb
      rcases List.mem_cons.mp hb with rfl | hb
      · exact le_foldl_max xs b
      · exact mem_le_foldl_max xs x b hb

/-- `list_index` finds the first occurrence: the returned index is in range,
holds the sought value, and no earlier index does. -/
theorem list_index_spec {α : Type} [DecidableEq α] :
    ∀ (l : List α) (v : α), v ∈ l →
      ∃ i, list_index l v = Except.ok i ∧ i < l.length ∧
        l.getD i v = v ∧ ∀ j < i, ∀ d, l.getD j d ≠ v := by
  intro l
  induction l with
  | nil => intro v h; cases h
  | cons x xs ih =>
    intro v hv
    by_cases hx : x = v
    · refine ⟨0, ?_, ?_, ?_, ?_⟩
      · simp [list_index, hx]
      · simp
      · simpa using hx
      · intro j hj; omega
    · have hv' : v ∈ xs := by
        rcases List.mem_cons.mp hv with rfl | h
        · exact absurd rfl hx
        · exact h
      obtain ⟨i, hi1, hi2, hi3, hi4⟩ := ih v hv'
      refine ⟨i + 1, ?_, ?_, ?_, ?_⟩
      · simp [list_index, hx, hi1, Except.map]
      · simpa using hi2
      · simpa using hi3
      · intro j hj d
        match j with
        | 0 => simpa using hx
        | j + 1 =>
          have : j < i := by omega
          simpa using hi4 j this d

/-- Full specification of the Decision Extractor on a non-empty vector: it
returns the first index achieving the maximum. -/
theorem prediction_spec (l : List ℚ) (h : l ≠ []) :
    ∃ i, prediction l = Except.ok i ∧ i < l.length ∧
      (∀ j < l.length, l.getD j 0 ≤ l.getD i 0) ∧
      ∀ j < i, l.getD j 0 < l.getD i 0 := by
  obtain ⟨m, hm, hmem, hub⟩ := pyMax_spec l h
  obtain ⟨i, hi1, hi2, hi3, hi4⟩ := list_index_spec l m hmem
  have hgi : l.getD i 0 = m := by
    rw [List.getD_eq_getElem l 0 hi2]
    rw [List.getD_eq_getElem l m hi2] at hi3
    exact hi3
  refine ⟨i, ?_, hi2, ?_, ?_⟩
  · simp [prediction, hm, hi1]
  · intro j hj
    rw [hgi, List.getD_eq_getElem l 0 hj]
    exact hub _ (List.getElem_mem hj)
  · intro j hj
    have hjl : j < l.length := lt_trans hj hi2
    have hle : l.getD j 0 ≤ m := by
      rw [List.getD_eq_getElem l 0 hjl]
      exact hub _ (List.getElem_mem hjl)
    have hne : l.getD j 0 ≠ m := hi4 j hj 0
    rw [hgi]
    exact lt_of_le_of_ne hle hne

/- ### Claim theorems for the Decision Extractor -/

/-- C1: for the probability vector
`[0.01, 0.02, 0.9, 0.01, 0.01, 0.01, 0.01, 0.01, 0.01, 0.01]` the Decision
Extractor `prediction = probabilities.index(max(probabilities))` returns the
integer label `2`. -/
theorem prediction_of_sample_vector :
    prediction [0.01, 0.02, 0.9, 0.01, 0.01, 0.01, 0.01, 0.01, 0.01, 0.01] =
      Except.ok 2 := by
  norm_num [prediction, pyMax, list_index, Except.map]

/-- C2: for every non-empty probability vector the Decision Extractor returns
the first (lowest) index achieving the maximum — every entry is bounded by the
returned entry, and every strictly earlier entry is strictly below it; in
particular for `[0.5, 0.5, 0, 0, 0, 0, 0, 0, 0, 0]` it returns `0`. -/
theorem prediction_first_index_of_max :
    prediction [(0.5 : ℚ), 0.5, 0, 0, 0, 0, 0, 0, 0, 0] = Except.ok 0 ∧
    ∀ l : List ℚ, l ≠ [] → ∃ i, prediction l = Except.ok i ∧ i < l.length ∧
      (∀ j < l.length, l.getD j 0 ≤ l.getD i 0) ∧
      ∀ j < i, l.getD j 0 < l.getD i 0 := by
  constructor
  · norm_num [prediction, pyMax, list_index, Except.map]
  · exact prediction_spec

/-- Witness for C2: the general statement applied to the tie vector
`[0.5, 0.5, 0, 0, 0, 0, 0, 0, 0, 0]`. -/
theorem prediction_first_index_of_max_witness :
    ([(0.5 : ℚ), 0.5, 0, 0, 0, 0, 0, 0, 0, 0] : List ℚ) ≠ [] ∧
    ∃ i, prediction [(0.5 : ℚ), 0.5, 0, 0, 0, 0, 0, 0, 0, 0] = Except.ok i ∧
      i < ([(0.5 : ℚ), 0.5, 0, 0, 0, 0, 0, 0, 0, 0] : List ℚ).length ∧
      (∀ j < ([(0.5 : ℚ), 0.5, 0, 0, 0, 0, 0, 0, 0, 0] : List ℚ).length,
        ([(0.5 : ℚ), 0.5, 0, 0, 0, 0, 0, 0, 0, 0] : List ℚ).getD j 0 ≤
          ([(0.5 : ℚ), 0.5, 0, 0, 0, 0, 0, 0, 0, 0] : List ℚ).getD i 0) ∧
      ∀ j < i, ([(0.5 : ℚ), 0.5, 0, 0, 0, 0, 0, 0, 0, 0] : List ℚ).getD j 0 <
        ([(0.5 : ℚ), 0.5, 0, 0, 0, 0, 0, 0, 0, 0] : List ℚ).getD i 0 :=
  ⟨by decide, prediction_first_index_of_max.2 _ (by decide)⟩

/-- C3: on the empty probability vector the Decision Extractor fails with the
explicit empty-input error raised by Python's `max` —
`ValueError: max() arg is an empty sequence` — rather than returning a value. -/
theorem prediction_empty_input_error :
    prediction ([] : List ℚ) = Except.error "max() arg is an empty sequence" :=
  rfl

/-- C6: for every probability vector of length 10 the Decision Extractor
produces a label in the range `[0, 9]`, and that label is a valid index of a
maximum-probability entry of the vector. -/
theorem prediction_label_in_range (l : List ℚ) (h : l.length = 10) :
    ∃ i, prediction l = Except.ok i ∧ i ≤ 9 ∧
      ∀ j < 10, l.getD j 0 ≤ l.getD i 0 := by
  have hne : l ≠ [] := by
    intro he
    rw [he] at h
    simp at h
  obtain ⟨i, h1, h2, h3, _⟩ := prediction_spec l hne
  refine ⟨i, h1, by omega, ?_⟩
  intro j hj
  exact h3 j (by omega)

/-- Witness for C6: the range property at the one-hot vector for digit 7. -/
theorem prediction_label_in_range_witness :
    ([(0 : ℚ), 0, 0, 0, 0, 0, 0, 1, 0, 0] : List ℚ).length = 10 ∧
    ∃ i, prediction [(0 : ℚ), 0, 0, 0, 0, 0, 0, 1, 0, 0] = Except.ok i ∧
      i ≤ 9 ∧ ∀ j < 10,
        ([(0 : ℚ), 0, 0, 0, 0, 0, 0, 1, 0, 0] : List ℚ).getD j 0 ≤
          ([(0 : ℚ), 0, 0, 0, 0, 0, 0, 1, 0, 0] : List ℚ).getD i 0 :=
  ⟨by decide, prediction_label_in_range _ (by decide)⟩

/- ### Result Fetcher: bucket/key resolution (cell downloading the results) -/

/-- Embedding of `urllib.parse.urlparse` as used on `transformer.output_path`,
whose value has the `s3://<bucket>/<path>` shape: `netloc` is everything after
the `s3://` prefix up to the first slash, `path` is the remainder with its
leading slash included. -/
def urlparse_s3 (url : String) : String × String :=
  let rest := url.toList.drop 5
  (⟨rest.takeWhile (fun c => c != '/')⟩, ⟨rest.dropWhile (fun c => c != '/')⟩)

/-- The Result Fetcher location resolution from the notebook:
`bucket_name = parsed_url.netloc` and
`file_key = '\x7b\x7d/data.csv.out'.format(parsed_url.path[1:])`, i.e. the
reported path without its leading slash spliced with the fixed suffix. -/
def resolve_output_location (output_path : String) : String × String :=
  let parsed_url := urlparse_s3 output_path
  (parsed_url.1, ⟨parsed_url.2.toList.drop 1 ++ "/data.csv.out".toList⟩)

theorem takeWhile_append_stop {p : Char → Bool} :
    ∀ (l1 : List Char) (c : Char) (l2 : List Char),
      (∀ x ∈ l1, p x = true) → p c = false →
      (l1 ++ c :: l2).takeWhile p = l1 := by
  intro l1 c l2 h hc
  induction l1 with
  | nil => simp [List.takeWhile_cons, hc]
  | cons x xs ih =>
    have hx : p x = true := h x (List.mem_cons_self x xs)
    have hxs : ∀ y ∈ xs, p y = true := fun y hy => h y (List.mem_cons_of_mem x hy)
    simp [List.takeWhile_cons, hx, ih hxs]

theorem dropWhile_append_stop {p : Char → Bool} :
    ∀ (l1 : List Char) (c : Char) (l2 : List Char),
      (∀ x ∈ l1, p x = true) → p c = false →
      (l1 ++ c :: l2).dropWhile p = c :: l2 := by
  intro l1 c l2 h hc
  induction l1 with
  | nil => simp [List.dropWhile_cons, hc]
  | cons x xs ih =>
    have hx : p x = true := h x (List.mem_cons_self x xs)
    have hxs : ∀ y ∈ xs, p y = true := fun y hy => h y (List.mem_cons_of_mem x hy)
    simp [List.dropWhile_cons, hx, ih hxs]

/-- C4: for every output path of the form `s3://<bucket>/<path>` (the bucket
name containing no slash), the Result Fetcher resolves the bucket to
`<bucket>` and the object key to exactly `<path>/data.csv.out`. -/
theorem resolve_output_location_spec (bucket path : String)
    (h : ∀ c ∈ bucket.toList, c ≠ '/') :
    resolve_output_location ("s3://" ++ bucket ++ "/" ++ path) =
      (bucket, path ++ "/data.csv.out") := by
  have hdata : ("s3://" ++ bucket ++ "/" ++ path).data =
      "s3://".data ++ (bucket.data ++ '/' :: path.data) := by
    simp [String.data_append]
  have hdrop : List.drop 5 ("s3://" ++ bucket ++ "/" ++ path).data =
      bucket.data ++ '/' :: path.data := by
    rw [hdata]
    have h5 : ("s3://".data).length = 5 := by decide
    rw [← h5, List.drop_left]
  have hall : ∀ x ∈ bucket.data, (fun c => c != '/') x = true := by
    intro x hx
    simpa using h x hx
  have hslash : (fun c => c != '/') '/' = false := by decide
  have htake : List.takeWhile (fun c => c != '/') (bucket.data ++ '/' :: path.data) =
      bucket.data := takeWhile_append_stop _ _ _ hall hslash
  have hdrop2 : List.dropWhile (fun c => c != '/') (bucket.data ++ '/' :: path.data) =
      '/' :: path.data := dropWhile_append_stop _ _ _ hall hslash
  unfold resolve_output_location urlparse_s3
  dsimp only [String.toList]
  rw [hdrop, htake, hdrop2]
  rfl

/-- Witness for C4: resolution of a concrete transform output path. -/
theorem resolve_output_location_spec_witness :
    (∀ c ∈ ("sagemaker-bkt" : String).toList, c ≠ '/') ∧
    resolve_output_location "s3://sagemaker-bkt/mxnet-batch-output" =
      ("sagemaker-bkt", "mxnet-batch-output" ++ "/data.csv.out") :=
  ⟨by decide, resolve_output_location_spec "sagemaker-bkt" "mxnet-batch-output" (by decide)⟩

/- ### Selecting the single prediction record: `probabilities = output[0]` -/

/-- Embedding of Python list indexing `l[i]`: raises
`IndexError: list index out of range` when the index is out of bounds. -/
def pyGetItem {α : Type} (l : List α) (i : Nat) : Except String α :=
  if h : i < l.length then Except.ok (l.get ⟨i, h⟩)
  else Except.error "list index out of range"

/-- The notebook's selection of the probability vector for the single
submitted sample: `probabilities = output[0]`. -/
def select_probabilities (output : List (List ℚ)) : Except String (List ℚ) :=
  pyGetItem output 0

/-- C9: selecting element `0` from a decoded output with zero prediction
records fails with the out-of-range index error, and the selection succeeds
exactly when the decoded output contains at least one prediction. -/
theorem select_probabilities_empty_fails :
    select_probabilities [] = Except.error "list index out of range" ∧
    ∀ output : List (List ℚ),
      (∃ v, select_probabilities output = Except.ok v) ↔ output ≠ [] := by
  constructor
  · simp [select_probabilities, pyGetItem]
  · intro output
    constructor
    · rintro ⟨v, hv⟩ rfl
      simp [select_probabilities, pyGetItem] at hv
    · intro hne
      match output with
      | [] => exact absurd rfl hne
      | x :: xs => exact ⟨x, by simp [select_probabilities, pyGetItem]⟩

/-- Witness for C9: the succeeds-iff-non-empty property at a concrete
one-record output. -/
theorem select_probabilities_empty_fails_witness :
    (∃ v, select_probabilities [[(1 : ℚ)]] = Except.ok v) ↔
      ([[(1 : ℚ)]] : List (List ℚ)) ≠ [] :=
  select_probabilities_empty_fails.2 [[(1 : ℚ)]]

/- ### Temporary-directory setup (cell creating `/tmp/data`) -/

/-- The notebook's temporary directory: `tmp_dir = '/tmp/data'`. -/
def tmp_dir : String := "/tmp/data"

/-- Embedding of `os.path.exists` over an abstract filesystem state mapping
each path to whether it exists. -/
def os_path_exists (fs : String → Bool) (p : String) : Bool := fs p

/-- Embedding of `os.makedirs(p)` (no `exist_ok`): raises `FileExistsError`
when `p` already exists, otherwise creates `p` together with every missing
ancestor directory (any `q` with `q ++ "/"` a prefix of `p`). -/
def os_makedirs (fs : String → Bool) (p : String) : Except String (String → Bool) :=
  if fs p then Except.error "FileExistsError"
  else Except.ok fun q => q == p || List.isPrefixOf (q.data ++ ['/']) p.data || fs q

/-- The setup cell: `if not os.path.exists(tmp_dir): os.makedirs(tmp_dir)`,
returning the new filesystem state. -/
def setup_tmp_dir (fs : String → Bool) : Except String (String → Bool) :=
  if os_path_exists fs tmp_dir then Except.ok fs
  else os_makedirs fs tmp_dir

/-- C10: the temporary-directory setup is idempotent — from any filesystem
state it succeeds (never raising `FileExistsError`), afterwards `/tmp/data`
exists, and running the setup again on the resulting state succeeds and
changes nothing. -/
theorem setup_tmp_dir_idempotent (fs : String → Bool) :
    ∃ fs2, setup_tmp_dir fs = Except.ok fs2 ∧
      os_path_exists fs2 tmp_dir = true ∧
      setup_tmp_dir fs2 = Except.ok fs2 := by
  by_cases hfs : fs tmp_dir
  · refine ⟨fs, ?_, hfs, ?_⟩
    · simp [setup_tmp_dir, os_path_exists, hfs]
    · simp [setup_tmp_dir, os_path_exists, hfs]
  · have hex : os_path_exists (fun q => q == tmp_dir ||
        List.isPrefixOf (q.data ++ ['/']) tmp_dir.data || fs q) tmp_dir = true := by
      simp [os_path_exists]
    refine ⟨_, ?_, hex, ?_⟩
    · simp [setup_tmp_dir, os_path_exists, os_makedirs, hfs]
    · simp [setup_tmp_dir, os_path_exists, hex]

/- ### The linear workflow: fit -> transform -> wait -> fetch -> decode -> extract -/

/-- The externally observable steps of the notebook, in cell order:
`mnist_estimator.fit(...)`, `transformer.transform(...)`, `transformer.wait()`,
the S3 object read, `ast.literal_eval`, and the arg-max extraction. -/
inductive Step where
  | fit
  | transform
  | wait
  | fetch
  | decode
  | extract
deriving DecidableEq

/-- The notebook's strictly linear control flow, in program order. -/
def workflowSteps : List Step :=
  [Step.fit, Step.transform, Step.wait, Step.fetch, Step.decode, Step.extract]

/-- Run a sequence of steps against an oracle giving each step's outcome: a
step that raises aborts the run immediately, its error kept unmodified; a
successful step is followed by the next one. The first component is the trace
of steps that actually executed. -/
def runSteps (o : Step → Except String Unit) :
    List Step → List Step × Except String Unit
  | [] => ([], Except.ok ())
  | s :: rest =>
    match o s with
    | Except.error e => ([s], Except.error e)
    | Except.ok _ =>
      let p := runSteps o rest
      (s :: p.1, p.2)

/-- One end-to-end execution of the notebook under outcome oracle `o`. -/
def runWorkflow (o : Step → Except String Unit) : List Step × Except String Unit :=
  runSteps o workflowSteps

/-- C7: in every execution, if the storage read of the output object occurs in
the trace then the blocking `transformer.wait()` occurs strictly earlier in
the trace and reported success; the fetch never precedes completion. -/
theorem fetch_only_after_wait_success (o : Step → Except String Unit) (i : Nat)
    (hi : i < (runWorkflow o).1.length)
    (hf : (runWorkflow o).1.getD i Step.fit = Step.fetch) :
    ∃ j < i, (runWorkflow o).1.getD j Step.fit = Step.wait ∧
      o Step.wait = Except.ok () := by
  cases h1 : o Step.fit with
  | error e =>
    simp [runWorkflow, runSteps, workflowSteps, h1] at hi hf
  | ok u1 =>
    cases h2 : o Step.transform with
    | error e =>
      simp [runWorkflow, runSteps, workflowSteps, h1, h2] at hi hf
      all_goals (interval_cases i <;> simp_all)
    | ok u2 =>
      cases h3 : o Step.wait with
      | error e =>
        simp [runWorkflow, runSteps, workflowSteps, h1, h2, h3] at hi hf
        all_goals (interval_cases i <;> simp_all)
      | ok u3 =>
        have htrace : (runWorkflow o).1 = Step.fit :: Step.transform :: Step.wait ::
            (runSteps o [Step.fetch, Step.decode, Step.extract]).1 := by
          simp [runWorkflow, runSteps, workflowSteps, h1, h2, h3]
        have h3i : 3 ≤ i := by
          by_contra hlt
          push_neg at hlt
          interval_cases i <;> simp [htrace] at hf
        refine ⟨2, by omega, ?_, ?_⟩
        · simp [htrace]
        · cases u3
          rfl

/-- The all-success outcome oracle: every remote call completes normally. -/
def allOk : Step → Except String Unit := fun _ => Except.ok ()

/-- Witness for C7: the all-success execution; its trace holds the fetch at
position 3 and the successful wait strictly before it. -/
theorem fetch_only_after_wait_success_witness :
    3 < (runWorkflow allOk).1.length ∧
    (runWorkflow allOk).1.getD 3 Step.fit = Step.fetch ∧
    ∃ j < 3, (runWorkflow allOk).1.getD j Step.fit = Step.wait ∧
      allOk Step.wait = Except.ok () :=
  ⟨by simp [runWorkflow, runSteps, workflowSteps, allOk],
   by simp [runWorkflow, runSteps, workflowSteps, allOk],
   fetch_only_after_wait_success allOk 3
     (by simp [runWorkflow, runSteps, workflowSteps, allOk])
     (by simp [runWorkflow, runSteps, workflowSteps, allOk])⟩

theorem runSteps_first_error :
    ∀ (steps : List Step) (o : Step → Except String Unit) (i : Nat) (e : String),
      i < steps.length →
      (∀ j < i, o (steps.getD j Step.fit) = Except.ok ()) →
      o (steps.getD i Step.fit) = Except.error e →
      runSteps o steps = (steps.take (i + 1), Except.error e) := by
  intro steps
  induction steps with
  | nil => intro o i e hi _ _; simp at hi
  | cons s rest ih =>
    intro o i e hi hok herr
    match i with
    | 0 =>
      simp only [List.getD_cons_zero] at herr
      simp [runSteps, herr]
    | k + 1 =>
      have hs : o s = Except.ok () := by
        have := hok 0 (by omega)
        simpa using this
      have hok' : ∀ j < k, o (rest.getD j Step.fit) = Except.ok () := by
        intro j hj
        have := hok (j + 1) (by omega)
        simpa using this
      have herr' : o (rest.getD k Step.fit) = Except.error e := by
        simpa using herr
      have hk : k < rest.length := by
        simpa using hi
      simp [runSteps, hs, ih o k e hk hok' herr']

/-- C8: if every step before step `i` of the linear workflow succeeds and step
`i` raises error `e`, the whole workflow aborts there: the executed trace is
exactly the steps up to and including `i` — the failing step runs once, is
never retried, and no later step executes — and the error surfaces to the
caller unmodified. -/
theorem workflow_failure_aborts (o : Step → Except String Unit) (i : Nat) (e : String)
    (hi : i < workflowSteps.length)
    (hok : ∀ j < i, o (workflowSteps.getD j Step.fit) = Except.ok ())
    (herr : o (workflowSteps.getD i Step.fit) = Except.error e) :
    runWorkflow o = (workflowSteps.take (i + 1), Except.error e) :=
  runSteps_first_error workflowSteps o i e hi hok herr

/-- An outcome oracle whose transform submission is rejected by the remote
service and whose other calls complete normally. -/
def failTransform : Step → Except String Unit := fun s =>
  if s = Step.transform then Except.error "ResourceLimitExceeded" else Except.ok ()

/-- Witness for C8: under `failTransform` the workflow stops after
`[fit, transform]`, surfacing the remote error unmodified. -/
theorem workflow_failure_aborts_witness :
    1 < workflowSteps.length ∧
    runWorkflow failTransform =
      (workflowSteps.take (1 + 1), Except.error "ResourceLimitExceeded") :=
  ⟨by simp [workflowSteps],
   workflow_failure_aborts failTransform 1 "ResourceLimitExceeded"
     (by simp [workflowSteps])
     (by intro j hj
         interval_cases j
         simp [workflowSteps, failTransform])
     (by simp [workflowSteps, failTransform])⟩

/- ### Output artifact: literal text encoding and `ast.literal_eval` decoding -/

/-- A numeric scalar of the output artifact as it appears in the literal text:
a decimal numeral with an integer part and a list of fractional digits
(e.g. `0.034`, `12.5`, `1.`). -/
structure PyDecimal where
  intPart : Nat
  frac : List (Fin 10)
deriving DecidableEq

/-- Decimal numeral of a natural number, most significant digit first;
`0` is printed as `"0"`. -/
def natToChars (n : Nat) : List Char :=
  if n = 0 then ['0'] else ((Nat.digits 10 n).reverse).map Nat.digitChar

/-- Literal text of one numeric scalar: integer part, `.`, fractional digits. -/
def encodeDec (x : PyDecimal) : List Char :=
  natToChars x.intPart ++ '.' :: x.frac.map (fun d => Nat.digitChar d.val)

/-- Elements written out separated by `", "`, as Python prints list bodies. -/
def commaSep {α : Type} (enc : α → List Char) : List α → List Char
  | [] => []
  | [x] => enc x
  | x :: y :: xs => enc x ++ ',' :: ' ' :: commaSep enc (y :: xs)

/-- Literal text of one prediction record (a list of probabilities). -/
def encodeRow (r : List PyDecimal) : List Char :=
  '[' :: (commaSep encodeDec r ++ [']'])

/-- Literal text of the whole two-level sequence. -/
def encodeOutput (o : List (List PyDecimal)) : List Char :=
  '[' :: (commaSep encodeRow o ++ [']'])

/-- Modelled from the spec: the "textual literal encoding of a two-level
numeric sequence (list of lists of floating-point probabilities)" — the
output artifact text written by the transform job, whose producer is not part
of `src/`. -/
def encode_artifact (o : List (List PyDecimal)) : String :=
  ⟨encodeOutput o⟩

/-- Numeric value of a digit character. -/
def charToDigit (c : Char) : Nat := c.toNat - '0'.toNat

/-- Digit character as an element of `Fin 10`. -/
def charToFin (c : Char) : Fin 10 :=
  ⟨charToDigit c % 10, Nat.mod_lt _ (by norm_num)⟩

/-- Parse a maximal run of decimal digits into a natural number. -/
def parseNat (s : List Char) : Option (Nat × List Char) :=
  if (s.takeWhile Char.isDigit).length = 0 then none
  else some (Nat.ofDigits 10 (((s.takeWhile Char.isDigit).map charToDigit).reverse),
    s.dropWhile Char.isDigit)

/-- Parse one numeric scalar: integer part, a `.`, then a maximal run of
fractional digits. -/
def parseDec (s : List Char) : Option (PyDecimal × List Char) :=
  match parseNat s with
  | none => none
  | some (n, rest) =>
    match rest with
    | [] => none
    | c :: r2 =>
      if c = '.' then
        some (⟨n, (r2.takeWhile Char.isDigit).map charToFin⟩, r2.dropWhile Char.isDigit)
      else none

/-- Parse the non-empty body of a list of scalars up to and including the
closing `]`; the fuel bounds the number of elements. -/
def parseRowItems : Nat → List Char → Option (List PyDecimal × List Char)
  | 0, _ => none
  | fuel + 1, s =>
    match parseDec s with
    | none => none
    | some (d, rest) =>
      match rest with
      | [] => none
      | c :: r =>
        if c = ']' then some ([d], r)
        else if c = ',' then
          match r with
          | [] => none
          | c2 :: r2 =>
            if c2 = ' ' then
              match parseRowItems fuel r2 with
              | none => none
              | some (ds, r3) => some (d :: ds, r3)
            else none
        else none

/-- Parse one bracketed list of scalars. -/
def parseRow (fuel : Nat) (s : List Char) : Option (List PyDecimal × List Char) :=
  match s with
  | [] => none
  | c :: rest =>
    if c = '[' then
      match rest with
      | [] => none
      | c2 :: _ => if c2 = ']' then some ([], (rest.tail)) else parseRowItems fuel rest
    else none

/-- Parse the non-empty body of the outer list up to and including the
closing `]`. -/
def parseOutputItems : Nat → List Char → Option (List (List PyDecimal) × List Char)
  | 0, _ => none
  | fuel + 1, s =>
    match parseRow fuel s with
    | none => none
    | some (d, rest) =>
      match rest with
      | [] => none
      | c :: r =>
        if c = ']' then some ([d], r)
        else if c = ',' then
          match r with
          | [] => none
          | c2 :: r2 =>
            if c2 = ' ' then
              match parseOutputItems fuel r2 with
              | none => none
              | some (ds, r3) => some (d :: ds, r3)
            else none
        else none

/-- Parse the outer bracketed list of lists. -/
def parseOutput (fuel : Nat) (s : List Char) :
    Option (List (List PyDecimal) × List Char) :=
  match s with
  | [] => none
  | c :: rest =>
    if c = '[' then
      match rest with
      | [] => none
      | c2 :: _ => if c2 = ']' then some ([], (rest.tail)) else parseOutputItems fuel rest
    else none

/-- Embedding of `ast.literal_eval` on the artifact grammar: the decode step
`output = ast.literal_eval(output)` of the notebook. The whole text must be
consumed. -/
def literal_eval (s : String) : Option (List (List PyDecimal)) :=
  match parseOutput (s.data.length + 1) s.data with
  | some (v, []) => some v
  | _ => none

/- ### Round-trip lemmas: digits and scalars -/

theorem digitChar_isDigit : ∀ d, d < 10 → (Nat.digitChar d).isDigit = true := by
  decide

theorem charToDigit_digitChar : ∀ d, d < 10 → charToDigit (Nat.digitChar d) = d := by
  decide

theorem charToFin_digitChar : ∀ d : Fin 10, charToFin (Nat.digitChar d.val) = d := by
  decide

theorem natToChars_ne_nil (n : Nat) : natToChars n ≠ [] := by
  by_cases h : n = 0
  · simp [natToChars, h]
  · simp [natToChars, h, Nat.digits_ne_nil_iff_ne_zero]

theorem natToChars_all_digits (n : Nat) : ∀ c ∈ natToChars n, c.isDigit = true := by
  by_cases h : n = 0
  · intro c hc
    simp [natToChars, h] at hc
    rw [hc]
    decide
  · intro c hc
    simp [natToChars, h] at hc
    obtain ⟨d, hd, rfl⟩ := hc
    exact digitChar_isDigit d (Nat.digits_lt_base (by norm_num) hd)

theorem natToChars_value (n : Nat) :
    Nat.ofDigits 10 (((natToChars n).map charToDigit).reverse) = n := by
  by_cases h : n = 0
  · have h0 : charToDigit '0' = 0 := by decide
    simp [natToChars, h, h0, Nat.ofDigits]
  · have hmap : (natToChars n).map charToDigit = (Nat.digits 10 n).reverse := by
      simp only [natToChars, if_neg h, List.map_map]
      have hpt : ∀ d ∈ (Nat.digits 10 n).reverse,
          (charToDigit ∘ Nat.digitChar) d = id d := by
        intro d hd
        exact charToDigit_digitChar d
          (Nat.digits_lt_base (by norm_num) (List.mem_reverse.mp hd))
      rw [List.map_congr_left hpt, List.map_id]
    rw [hmap, List.reverse_reverse, Nat.ofDigits_digits]

theorem takeWhile_append_head {p : Char → Bool} :
    ∀ (l1 l2 : List Char), (∀ x ∈ l1, p x = true) →
      (∀ c t, l2 = c :: t → p c = false) →
      (l1 ++ l2).takeWhile p = l1 := by
  intro l1 l2 h hl2
  induction l1 with
  | nil =>
    simp only [List.nil_append]
    cases l2 with
    | nil => rfl
    | cons c t => simp [List.takeWhile_cons, hl2 c t rfl]
  | cons x xs ih =>
    have hx : p x = true := h x (List.mem_cons_self x xs)
    have hxs : ∀ y ∈ xs, p y = true := fun y hy => h y (List.mem_cons_of_mem x hy)
    simp [List.takeWhile_cons, hx, ih hxs]

theorem dropWhile_append_head {p : Char → Bool} :
    ∀ (l1 l2 : List Char), (∀ x ∈ l1, p x = true) →
      (∀ c t, l2 = c :: t → p c = false) →
      (l1 ++ l2).dropWhile p = l2 := by
  intro l1 l2 h hl2
  induction l1 with
  | nil =>
    simp only [List.nil_append]
    cases l2 with
    | nil => rfl
    | cons c t => simp [List.dropWhile_cons, hl2 c t rfl]
  | cons x xs ih =>
    have hx : p x = true := h x (List.mem_cons_self x xs)
    have hxs : ∀ y ∈ xs, p y = true := fun y hy => h y (List.mem_cons_of_mem x hy)
    simp [List.dropWhile_cons, hx, ih hxs]

theorem parseNat_encode (n : Nat) (rest : List Char)
    (hrest : ∀ c t, rest = c :: t → c.isDigit = false) :
    parseNat (natToChars n ++ rest) = some (n, rest) := by
  have htake : (natToChars n ++ rest).takeWhile Char.isDigit = natToChars n :=
    takeWhile_append_head _ _ (natToChars_all_digits n) hrest
  have hdrop : (natToChars n ++ rest).dropWhile Char.isDigit = rest :=
    dropWhile_append_head _ _ (natToChars_all_digits n) hrest
  unfold parseNat
  rw [htake, hdrop, if_neg, natToChars_value]
  simpa [List.length_eq_zero] using natToChars_ne_nil n

theorem parseDec_encode (x : PyDecimal) (rest : List Char)
    (hrest : ∀ c t, rest = c :: t → c.isDigit = false) :
    parseDec (encodeDec x ++ rest) = some (x, rest) := by
  have hdot : ∀ c t,
      ('.' :: (x.frac.map (fun d => Nat.digitChar d.val) ++ rest)) = c :: t →
        c.isDigit = false := by
    intro c t hct
    injection hct with h1 _
    rw [← h1]
    decide
  have heq : encodeDec x ++ rest =
      natToChars x.intPart ++
        ('.' :: (x.frac.map (fun d => Nat.digitChar d.val) ++ rest)) := by
    simp [encodeDec]
  have hfrac_digits : ∀ c ∈ x.frac.map (fun d => Nat.digitChar d.val),
      c.isDigit = true := by
    intro c hc
    simp only [List.mem_map] at hc
    obtain ⟨d, _, rfl⟩ := hc
    exact digitChar_isDigit d.val d.isLt
  have hfrac_rt : (x.frac.map (fun d => Nat.digitChar d.val)).map charToFin =
      x.frac := by
    rw [List.map_map]
    have hpt : ∀ d ∈ x.frac, (charToFin ∘ fun d => Nat.digitChar d.val) d = id d :=
      fun d _ => charToFin_digitChar d
    rw [List.map_congr_left hpt, List.map_id]
  rw [heq]
  unfold parseDec
  rw [parseNat_encode _ _ hdot]
  simp only [if_pos rfl,
    takeWhile_append_head _ _ hfrac_digits hrest,
    dropWhile_append_head _ _ hfrac_digits hrest, hfrac_rt]
  simp

/- ### Round-trip lemmas: lists -/

theorem encodeDec_head (x : PyDecimal) :
    ∃ c t, encodeDec x = c :: t ∧ c.isDigit = true := by
  obtain ⟨c, t, h⟩ : ∃ c t, natToChars x.intPart = c :: t := by
    cases hn : natToChars x.intPart with
    | nil => exact absurd hn (natToChars_ne_nil _)
    | cons c t => exact ⟨c, t, rfl⟩
  refine ⟨c, t ++ '.' :: x.frac.map (fun d => Nat.digitChar d.val), ?_, ?_⟩
  · simp [encodeDec, h]
  · exact natToChars_all_digits _ c (h ▸ List.mem_cons_self c t)

theorem commaSep_cons {α : Type} (enc : α → List Char) (x : α) (xs : List α) :
    ∃ t, commaSep enc (x :: xs) = enc x ++ t := by
  cases xs with
  | nil => exact ⟨[], by simp [commaSep]⟩
  | cons y ys => exact ⟨',' :: ' ' :: commaSep enc (y :: ys), by simp [commaSep]⟩

theorem parseRowItems_encode :
    ∀ (r : List PyDecimal) (fuel : Nat) (rest : List Char), r ≠ [] →
      r.length ≤ fuel →
      parseRowItems fuel (commaSep encodeDec r ++ ']' :: rest) = some (r, rest) := by
  intro r
  induction r with
  | nil => intro fuel rest h _; exact absurd rfl h
  | cons x xs ih =>
    intro fuel rest _ hlen
    cases fuel with
    | zero => simp at hlen
    | succ f =>
      cases xs with
      | nil =>
        have hne : ∀ c t, (']' :: rest) = c :: t → c.isDigit = false := by
          intro c t hct
          injection hct with h1 _
          rw [← h1]
          decide
        have hsingle : commaSep encodeDec [x] ++ ']' :: rest =
            encodeDec x ++ ']' :: rest := by
          simp [commaSep]
        rw [hsingle]
        unfold parseRowItems
        rw [parseDec_encode x _ hne]
        simp
      | cons y ys =>
        have hcomma : ∀ c t,
            (',' :: ' ' :: (commaSep encodeDec (y :: ys) ++ ']' :: rest)) = c :: t →
              c.isDigit = false := by
          intro c t hct
          injection hct with h1 _
          rw [← h1]
          decide
        have heq : commaSep encodeDec (x :: y :: ys) ++ ']' :: rest =
            encodeDec x ++
              (',' :: ' ' :: (commaSep encodeDec (y :: ys) ++ ']' :: rest)) := by
          simp [commaSep]
        rw [heq]
        unfold parseRowItems
        rw [parseDec_encode x _ hcomma]
        have hrec := ih f rest (by simp) (by simpa using Nat.le_of_succ_le_succ hlen)
        simp [hrec]

theorem parseRow_encode :
    ∀ (r : List PyDecimal) (fuel : Nat) (rest : List Char), r.length ≤ fuel →
      parseRow fuel (encodeRow r ++ rest) = some (r, rest) := by
  intro r fuel rest hlen
  cases r with
  | nil => simp [encodeRow, commaSep, parseRow]
  | cons x xs =>
    obtain ⟨t, ht⟩ := commaSep_cons encodeDec x xs
    obtain ⟨c, t2, hc, hcd⟩ := encodeDec_head x
    have hbody : commaSep encodeDec (x :: xs) ++ ']' :: rest =
        c :: (t2 ++ (t ++ ']' :: rest)) := by
      rw [ht, hc]
      simp
    have hcne : c ≠ ']' := by
      intro hceq
      rw [hceq] at hcd
      simp at hcd
    have hinput : encodeRow (x :: xs) ++ rest =
        '[' :: (c :: (t2 ++ (t ++ ']' :: rest))) := by
      rw [← hbody]
      simp [encodeRow]
    rw [hinput]
    unfold parseRow
    simp only [if_pos rfl, if_neg hcne]
    rw [← hbody, parseRowItems_encode (x :: xs) fuel rest (by simp) hlen]
    simp

theorem parseOutputItems_encode :
    ∀ (o : List (List PyDecimal)) (fuel : Nat) (rest : List Char), o ≠ [] →
      (∀ r ∈ o, r.length + o.length ≤ fuel) →
      parseOutputItems fuel (commaSep encodeRow o ++ ']' :: rest) =
        some (o, rest) := by
  intro o
  induction o with
  | nil => intro fuel rest h _; exact absurd rfl h
  | cons x os ih =>
    intro fuel rest _ hlen
    cases fuel with
    | zero =>
      have := hlen x (List.mem_cons_self x os)
      simp at this
    | succ f =>
      cases os with
      | nil =>
        have hx : x.length ≤ f := by
          have := hlen x (List.mem_cons_self x [])
          simp at this
          omega
        have hsingle : commaSep encodeRow [x] ++ ']' :: rest =
            encodeRow x ++ ']' :: rest := by
          simp [commaSep]
        rw [hsingle]
        unfold parseOutputItems
        rw [parseRow_encode x f (']' :: rest) hx]
        simp
      | cons y ys =>
        have hx : x.length ≤ f := by
          have := hlen x (List.mem_cons_self x (y :: ys))
          simp at this
          omega
        have heq : commaSep encodeRow (x :: y :: ys) ++ ']' :: rest =
            encodeRow x ++
              (',' :: ' ' :: (commaSep encodeRow (y :: ys) ++ ']' :: rest)) := by
          simp [commaSep]
        have hlen' : ∀ r ∈ y :: ys, r.length + (y :: ys).length ≤ f := by
          intro r hr
          have := hlen r (List.mem_cons_of_mem x hr)
          simp at this ⊢
          omega
        rw [heq]
        unfold parseOutputItems
        rw [parseRow_encode x f _ hx]
        have hrec := ih f rest (by simp) hlen'
        simp [hrec]

theorem parseOutput_encode (o : List (List PyDecimal)) (fuel : Nat) (rest : List Char)
    (hlen : ∀ r ∈ o, r.length + o.length ≤ fuel) :
    parseOutput fuel (encodeOutput o ++ rest) = some (o, rest) := by
  cases o with
  | nil => simp [encodeOutput, commaSep, parseOutput]
  | cons x os =>
    obtain ⟨t, ht⟩ := commaSep_cons encodeRow x os
    have hbody : commaSep encodeRow (x :: os) ++ ']' :: rest =
        '[' :: ((commaSep encodeDec x ++ [']']) ++ (t ++ ']' :: rest)) := by
      rw [ht]
      simp [encodeRow]
    have hinput : encodeOutput (x :: os) ++ rest =
        '[' :: ('[' :: ((commaSep encodeDec x ++ [']']) ++ (t ++ ']' :: rest))) := by
      rw [← hbody]
      simp [encodeOutput]
    rw [hinput]
    unfold parseOutput
    simp only [if_pos rfl, if_neg (by decide : ¬('[' : Char) = ']')]
    rw [← hbody, parseOutputItems_encode (x :: os) fuel rest (by simp) hlen]
    simp

/- ### Length bounds providing enough parser fuel -/

theorem one_le_encodeDec (x : PyDecimal) : 1 ≤ (encodeDec x).length := by
  have h := List.length_pos.mpr (natToChars_ne_nil x.intPart)
  simp [encodeDec]
  omega

theorem length_le_commaSep {α : Type} (enc : α → List Char)
    (h : ∀ x, 1 ≤ (enc x).length) :
    ∀ xs : List α, xs.length ≤ (commaSep enc xs).length := by
  intro xs
  induction xs with
  | nil => simp [commaSep]
  | cons x xs ih =>
    cases xs with
    | nil => simpa [commaSep] using h x
    | cons y ys =>
      have hx := h x
      simp only [commaSep, List.length_append, List.length_cons] at *
      omega

theorem two_le_encodeRow (r : List PyDecimal) :
    r.length + 2 ≤ (encodeRow r).length := by
  have h := length_le_commaSep encodeDec one_le_encodeDec r
  simp only [encodeRow, List.length_cons, List.length_append]
  simp
  omega

theorem row_bound :
    ∀ (o : List (List PyDecimal)), ∀ r ∈ o,
      r.length + o.length ≤ (commaSep encodeRow o).length := by
  intro o
  induction o with
  | nil => simp
  | cons x os ih =>
    intro r hr
    cases os with
    | nil =>
      have hre : r = x := by simpa using hr
      subst hre
      have := two_le_encodeRow r
      simp [commaSep]
      omega
    | cons y ys =>
      have hx := two_le_encodeRow x
      have htail := length_le_commaSep encodeRow
        (fun rr => by have := two_le_encodeRow rr; omega) (y :: ys)
      rcases List.mem_cons.mp hr with hre | hrm
      · subst hre
        simp only [commaSep, List.length_append, List.length_cons] at *
        omega
      · have := ih r hrm
        simp only [commaSep, List.length_append, List.length_cons] at *
        omega

/-- C5: decoding with the literal parser is a left inverse of encoding — for
every list-of-lists-of-numbers structure, `literal_eval` applied to its
literal text form returns a structure equal to the original. -/
theorem literal_eval_encode_roundtrip (o : List (List PyDecimal)) :
    literal_eval (encode_artifact o) = some o := by
  have hfuel : ∀ r ∈ o, r.length + o.length ≤ (encodeOutput o).length + 1 := by
    intro r hr
    have h1 := row_bound o r hr
    have h2 : (commaSep encodeRow o).length ≤ (encodeOutput o).length := by
      simp [encodeOutput]
      omega
    omega
  have h := parseOutput_encode o ((encodeOutput o).length + 1) [] hfuel
  rw [List.append_nil] at h
  show (match parseOutput ((encodeOutput o).length + 1) (encodeOutput o) with
    | some (v, []) => some v
    | _ => none) = some o
  rw [h]
